import Mathlib

/-
Verification of the ftl session-extraction pipeline (src/ftl.py).

The pipeline is embedded shallowly:

* Python dicts are insertion-ordered, so `WorkspaceUrls` and `WindowUrls`
  are modelled as ordered association lists.
* A Python expression that can raise (a missing dict key, an out-of-range
  list index) is modelled as an `Option`-valued function; `none` is the
  raised exception.
* Python list indexing `l[i]` accepts negative indices counting from the
  end; `listPyIdx` reproduces that.
-/

namespace Ftl

/-- The urls of each of the tabs in a window (`TabUrls` in ftl.py). -/
abbrev TabUrls := List String

/-- The urls of each of the windows in a workspace (`WindowUrls` in ftl.py):
an insertion-ordered dict from window index string to tab urls. -/
abbrev WindowUrls := List (String × TabUrls)

/-- The urls of several workspaces (`WorkspaceUrls` in ftl.py):
an insertion-ordered dict from workspace id to `WindowUrls`. -/
abbrev WorkspaceUrls := List (String × WindowUrls)

/-- One tab record of the session document.  Only the fields consumed by
ftl.py are modelled: `entries` keeps each history entry through its `url`
field, and `index` is the value of `int(tab["index"])`. -/
structure Tab where
  entries : List String
  index : Int
deriving DecidableEq, Repr

/-- One window record of the session document.  `workspaceID` is `none`
when the `"workspaceID"` key is absent from the window dict, in which case
`window["workspaceID"]` raises `KeyError`. -/
structure Window where
  workspaceID : Option String
  tabs : List Tab
deriving DecidableEq, Repr

/-- The decoded session document.  Only the top-level `"windows"` key is
consumed by ftl.py; `windows = none` models a JSON root that lacks it. -/
structure Session where
  windows : Option (List Window)
deriving DecidableEq, Repr

/-- Python list indexing `l[i]`: a non-negative index is in range when it
is below the length, a negative index counts from the end of the list, and
anything else raises `IndexError` (modelled as `none`). -/
def listPyIdx {α : Type} (l : List α) (i : Int) : Option α :=
  if 0 ≤ i then l.get? i.toNat
  else if 0 ≤ (l.length : Int) + i then l.get? ((l.length : Int) + i).toNat
  else none

/-- `get_session_data` (ftl.py lines 21-31) after the external collaborators
(file read, lz4 block decompression, UTF-8 JSON parsing) have produced the
parsed JSON root: the function returns that root unchanged and performs no
shape validation of its own, so given a parsed root it never fails. -/
def get_session_data (root : Session) : Option Session :=
  some root

/-- `get_window_workspace_id` (ftl.py lines 34-40): `window["workspaceID"]`;
raises `KeyError` (`none`) when the key is absent. -/
def get_window_workspace_id (window : Window) : Option String :=
  window.workspaceID

/-- The per-tab expression of ftl.py line 64:
`tab["entries"][int(tab["index"]) - 1]["url"]`. -/
def tab_current_url (tab : Tab) : Option String :=
  listPyIdx tab.entries (tab.index - 1)

/-- The list comprehension of `get_window_tab_urls`: evaluate
`tab_current_url` on each tab in order, propagating the first failure. -/
def tabs_current_urls : List Tab → Option TabUrls
  | [] => some []
  | t :: ts =>
    match tab_current_url t, tabs_current_urls ts with
    | some u, some us => some (u :: us)
    | _, _ => none

/-- `get_window_tab_urls` (ftl.py lines 51-66). -/
def get_window_tab_urls (window : Window) : Option TabUrls :=
  tabs_current_urls window.tabs

/-- `select_urls` (ftl.py lines 89-115).  Note that both fallbacks for an
empty id tuple are `windows.keys()` — the window-index keys of the
workspace currently being tested — exactly as in the source. -/
def select_urls (all_workspace_urls : WorkspaceUrls)
    (workspace_ids : List String) (window_ids : List String) : WorkspaceUrls :=
  (all_workspace_urls.filter (fun p =>
      decide (p.1 ∈ (if workspace_ids.isEmpty then p.2.map Prod.fst else workspace_ids)))).map
    (fun p => (p.1, p.2.filter (fun q =>
      decide (q.1 ∈ (if window_ids.isEmpty then p.2.map Prod.fst else window_ids)))))

/-- C1: the claim says `select_urls m () ()` is deeply equal to `m`.  The
code disagrees: with an empty workspace filter the fallback membership test
is against the workspace's own window-index keys, so the workspace `"w1"`
(whose window keys are `"0"`) is dropped and the whole map comes back
empty instead of equal to the input. -/
theorem select_empty_filters_drops_workspace :
    select_urls [("w1", [("0", ["u"])])] [] [] = [] := by decide

/-- C2: the claim expects `select_urls` with an empty workspace filter and
window filter `("1")` to keep workspace `"w1"` and retain window `"1"`.
The code instead drops workspace `"w1"` entirely, because the empty
workspace filter falls back to the window-index keys `"0"`, `"1"`, which do
not contain `"w1"`; the result is empty. -/
theorem select_window_filter_drops_workspace :
    select_urls [("w1", [("0", ["x"]), ("1", ["y"])])] [] ["1"] = [] := by decide

/-- C6: the claim says `select_urls` is idempotent.  At the map
`{"0": {"0": ["x"], "1": ["y"]}}` with an empty workspace filter and window
filter `("1")`, one application keeps workspace `"0"` (its id happens to be
among its window keys) and filters it to window `"1"`; the second
application then drops the workspace, because its remaining window keys
`"1"` no longer contain `"0"`.  So select ∘ select differs from select. -/
theorem select_not_idempotent :
    select_urls [("0", [("0", ["x"]), ("1", ["y"])])] [] ["1"]
        = [("0", [("1", ["y"])])] ∧
      select_urls (select_urls [("0", [("0", ["x"]), ("1", ["y"])])] [] ["1"]) [] ["1"]
        = [] := by
  constructor <;> decide

/-- C10: `select_urls` never adds or alters entries: every workspace entry
of the output comes from a workspace entry of the input with the same id,
and every window entry retained under it is literally a window entry of
that input workspace, url list included. -/
theorem select_is_submap (m : WorkspaceUrls) (W K : List String)
    (wid : String) (wins : WindowUrls) (h : (wid, wins) ∈ select_urls m W K) :
    ∃ wins₀, (wid, wins₀) ∈ m ∧
      ∀ kid urls, (kid, urls) ∈ wins → (kid, urls) ∈ wins₀ := by
  unfold select_urls at h
  rcases List.mem_map.1 h with ⟨p, hp, hpe⟩
  have hpm : p ∈ m := (List.mem_filter.1 hp).1
  rw [Prod.mk.injEq] at hpe
  obtain ⟨h1, h2⟩ := hpe
  subst h1
  subst h2
  exact ⟨p.2, hpm, fun kid urls hin => (List.mem_filter.1 hin).1⟩

/-- Witness for C10 at a concrete input: the single entry of
`select_urls {"0": {"0": ["u"]}} () ()` is traced back to the input. -/
theorem select_is_submap_witness :
    ∃ wins₀, ("0", wins₀) ∈ ([("0", [("0", ["u"])])] : WorkspaceUrls) ∧
      ∀ kid urls, (kid, urls) ∈ ([("0", ["u"])] : WindowUrls) →
        (kid, urls) ∈ wins₀ :=
  select_is_submap [("0", [("0", ["u"])])] [] [] "0" [("0", ["u"])] (by decide)

/-- C3 counterexample: a tab whose `index` is `0` and whose history holds
one entry does not make extraction fail; Python evaluates `entries[-1]` and
returns the single url, so the window extracts to `some ["u"]` rather than
raising `InvalidTabIndex`. -/
theorem tab_index_zero_not_error :
    get_window_tab_urls ⟨some "w1", [⟨["u"], 0⟩]⟩ = some ["u"] := by decide

/-- C3 amended: extraction fails exactly on the genuinely unreachable
positions: a `currentIndex` strictly above the history length, or a
`currentIndex` of `0` on an empty history.  (A `currentIndex` of `0` on a
non-empty history does not fail: it yields the last entry.) -/
theorem tab_index_out_of_range_fails (entries : List String) (i : Int)
    (h : (entries.length : Int) < i ∨ (i = 0 ∧ entries = [])) :
    tab_current_url ⟨entries, i⟩ = none := by
  rcases h with h | ⟨h0, he⟩
  · dsimp only [tab_current_url, listPyIdx]
    rw [if_pos (by omega : (0 : Int) ≤ i - 1)]
    exact List.get?_eq_none.2 (by omega)
  · subst h0
    subst he
    decide

/-- Witness for the amended C3: a tab with a one-entry history and
`index = 3` fails to extract. -/
theorem tab_index_out_of_range_fails_witness :
    tab_current_url ⟨["u"], 3⟩ = none :=
  tab_index_out_of_range_fails ["u"] 3 (Or.inl (by decide))

/-- C9: a tab whose `index` is `0` and whose history is non-empty extracts
successfully to the url of the last history entry, because
`int(tab["index"]) - 1 = -1` indexes from the end of the Python list. -/
theorem tab_index_zero_returns_last (entries : List String)
    (h : entries ≠ []) :
    tab_current_url ⟨entries, 0⟩ = some (entries.getLast h) := by
  have hl : 0 < entries.length := List.length_pos.2 h
  unfold tab_current_url listPyIdx
  rw [if_neg (by omega : ¬ (0 : Int) ≤ 0 - 1),
    if_pos (by omega : (0 : Int) ≤ (entries.length : Int) + (0 - 1))]
  have ht : ((entries.length : Int) + (0 - 1)).toNat = entries.length - 1 := by
    omega
  rw [ht, List.get?_eq_getElem?, ← List.getLast?_eq_getElem?,
    List.getLast?_eq_getLast_of_ne_nil h]

/-- Witness for C9: a two-entry history with `index = 0` extracts to the
second (last) url. -/
theorem tab_index_zero_returns_last_witness :
    tab_current_url ⟨["http://a.com", "http://b.com"], 0⟩
      = some (List.getLast ["http://a.com", "http://b.com"] (by decide)) :=
  tab_index_zero_returns_last ["http://a.com", "http://b.com"] (by decide)

/-- The key computation performed by `sorted(.., key=get_window_workspace_id)`
(ftl.py line 83): every window is paired with its workspace id; a window
whose dict lacks the `"workspaceID"` key raises `KeyError` (`none`). -/
def keyed_windows : List Window → Option (List (String × Window))
  | [] => some []
  | w :: ws =>
    match get_window_workspace_id w, keyed_windows ws with
    | some k, some rest => some ((k, w) :: rest)
    | _, _ => none

/-- Lexicographic strict comparison of char lists by code point: the
comparison Python uses between `str` values in `sorted`. -/
def chars_lt : List Char → List Char → Bool
  | [], [] => false
  | [], _ :: _ => true
  | _ :: _, [] => false
  | a :: as, b :: bs =>
    if a.toNat < b.toNat then true
    else if b.toNat < a.toNat then false
    else chars_lt as bs

/-- Strict `<` on strings as Python compares them: lexicographic by code
point over the character data. -/
def str_lt (s₁ s₂ : String) : Bool :=
  chars_lt s₁.data s₂.data

/-- Insert one keyed window into an already key-sorted list, after every
element whose key is not greater — the stable insertion step. -/
def insert_keyed (a : String × Window) :
    List (String × Window) → List (String × Window)
  | [] => [a]
  | x :: xs => if str_lt a.1 x.1 then a :: x :: xs else x :: insert_keyed a xs

/-- The stable sort by workspace id of ftl.py line 83 (`sorted` with a key
function): elements are inserted left to right, each landing after all
elements with an equal or smaller key, so the original relative order of
equal keys is preserved — exactly the stability Python `sorted` guarantees. -/
def sort_keyed (l : List (String × Window)) : List (String × Window) :=
  l.foldl (fun acc a => insert_keyed a acc) []

/-- `itertools.groupby` (ftl.py line 82): partition a keyed list into the
maximal contiguous runs of equal keys, in order. -/
def group_runs : List (String × Window) → List (String × List Window)
  | [] => []
  | (k, w) :: rest =>
    match group_runs rest with
    | [] => [(k, [w])]
    | (k2, run) :: rs =>
      if k = k2 then (k, w :: run) :: rs else (k, [w]) :: (k2, run) :: rs

/-- Extract `get_window_tab_urls` for each window of a run in order,
propagating the first failure. -/
def windows_urls : List Window → Option (List TabUrls)
  | [] => some []
  | w :: ws =>
    match get_window_tab_urls w, windows_urls ws with
    | some u, some us => some (u :: us)
    | _, _ => none

/-- Python `enumerate` starting at `n`: pair each url list with the decimal
string of its position. -/
def index_urls_from (n : Nat) : List TabUrls → WindowUrls
  | [] => []
  | u :: us => (toString n, u) :: index_urls_from (n + 1) us

/-- `{str(index): urls for index, urls in enumerate(..)}` (ftl.py lines
78-81): pair each url list with the decimal string of its 0-based position
in the run. -/
def index_urls (us : List TabUrls) : WindowUrls :=
  index_urls_from 0 us

/-- One entry of the outer dict comprehension of ftl.py lines 77-86: a
workspace id together with its enumerated window url lists. -/
def run_to_entry (r : String × List Window) : Option (String × WindowUrls) :=
  match windows_urls r.2 with
  | some us => some (r.1, index_urls us)
  | none => none

/-- The outer dict comprehension over the groupby runs, propagating the
first failure. -/
def runs_to_result : List (String × List Window) → Option WorkspaceUrls
  | [] => some []
  | r :: rs =>
    match run_to_entry r, runs_to_result rs with
    | some e, some tail => some (e :: tail)
    | _, _ => none

/-- `get_urls_by_window_by_workspace` (ftl.py lines 69-86):
`session["windows"]` (KeyError when absent), key every window by its
workspace id (KeyError when one is absent), stable-sort by key, group into
runs, and build the nested dict of enumerated url lists. -/
def get_urls_by_window_by_workspace (session : Session) :
    Option WorkspaceUrls :=
  match session.windows with
  | none => none
  | some ws =>
    match keyed_windows ws with
    | none => none
    | some kws => runs_to_result (group_runs (sort_keyed kws))

/-- C4: scenario A: one window with workspace id `"w1"` and one tab whose
history is `["http://a.com", "http://b.com"]` with current index `2` groups
to exactly `{"w1": {"0": ["http://b.com"]}}`. -/
theorem scenario_a_grouping :
    get_urls_by_window_by_workspace
        ⟨some [⟨some "w1", [⟨["http://a.com", "http://b.com"], 2⟩]⟩]⟩
      = some [("w1", [("0", ["http://b.com"])])] := by decide

/-- C7 counterexample: on a parsed JSON root that lacks the `windows`
field, the decode step does not fail — `get_session_data` performs no
shape validation and returns the root unchanged. -/
theorem decode_missing_windows_succeeds :
    get_session_data ⟨none⟩ = some ⟨none⟩ ∧ get_session_data ⟨none⟩ ≠ none :=
  ⟨rfl, by decide⟩

/-- C7 amended: for every parsed root lacking the `windows` field, decoding
succeeds (returns the root unvalidated) and the failure instead occurs in
the grouping step, whose `session["windows"]` lookup raises the missing-key
error. -/
theorem missing_windows_fails_in_grouping (root : Session)
    (h : root.windows = none) :
    get_session_data root = some root ∧
      get_urls_by_window_by_workspace root = none := by
  refine ⟨rfl, ?_⟩
  unfold get_urls_by_window_by_workspace
  rw [h]

/-- Witness for the amended C7 at the concrete windows-less root. -/
theorem missing_windows_fails_in_grouping_witness :
    get_session_data ⟨none⟩ = some ⟨none⟩ ∧
      get_urls_by_window_by_workspace ⟨none⟩ = none :=
  missing_windows_fails_in_grouping ⟨none⟩ rfl

/-- A window without a `workspaceID` key poisons the whole key computation:
`sorted` evaluates the key function on every window, so `keyed_windows`
fails. -/
theorem keyed_windows_of_absent_id (ws : List Window) (w : Window)
    (hm : w ∈ ws) (hk : w.workspaceID = none) : keyed_windows ws = none := by
  induction ws with
  | nil => cases hm
  | cons a as ih =>
    rcases List.mem_cons.1 hm with h | h
    · subst h
      simp [keyed_windows, get_window_workspace_id, hk]
    · cases hga : get_window_workspace_id a <;>
        simp [keyed_windows, hga, ih h]

/-- C8 counterexample: a session whose single window record lacks the
`workspaceID` key makes grouping fail (the `window["workspaceID"]` lookup
raises), instead of assigning the window to a `"default"` workspace. -/
theorem grouping_absent_workspace_id_fails_cex :
    get_urls_by_window_by_workspace ⟨some [⟨none, [⟨["u"], 1⟩]⟩]⟩
      = none := by decide

/-- C8 amended: whenever any window of the session lacks the `workspaceID`
key, grouping fails with the missing-key error; no default-workspace
fallback exists anywhere in the pipeline. -/
theorem grouping_absent_workspace_id_fails (session : Session)
    (ws : List Window) (w : Window) (hw : session.windows = some ws)
    (hm : w ∈ ws) (hk : w.workspaceID = none) :
    get_urls_by_window_by_workspace session = none := by
  simp only [get_urls_by_window_by_workspace, hw,
    keyed_windows_of_absent_id ws w hm hk]

/-- Witness for the amended C8: a two-window session whose second window
lacks the `workspaceID` key fails to group. -/
theorem grouping_absent_workspace_id_fails_witness :
    get_urls_by_window_by_workspace
        ⟨some [⟨some "w1", [⟨["x"], 1⟩]⟩, ⟨none, [⟨["u"], 1⟩]⟩]⟩ = none :=
  grouping_absent_workspace_id_fails
    ⟨some [⟨some "w1", [⟨["x"], 1⟩]⟩, ⟨none, [⟨["u"], 1⟩]⟩]⟩
    [⟨some "w1", [⟨["x"], 1⟩]⟩, ⟨none, [⟨["u"], 1⟩]⟩]
    ⟨none, [⟨["u"], 1⟩]⟩ rfl (by decide) rfl

/-- The entries of a keyed window list whose key equals `s`, in order:
the original-order subsequence of one workspace. -/
def keep_key (s : String) : List (String × Window) → List (String × Window)
  | [] => []
  | p :: ps => if p.1 = s then p :: keep_key s ps else keep_key s ps

/-- The windows of a session whose workspace id is `s`, in original order. -/
def windows_with_id (s : String) : List Window → List Window
  | [] => []
  | w :: ws =>
    if get_window_workspace_id w = some s then w :: windows_with_id s ws
    else windows_with_id s ws

/-- The windows assigned to workspace `s` by the groupby runs, concatenated
in run order. -/
def runs_windows (s : String) : List (String × List Window) → List Window
  | [] => []
  | r :: rs => if r.1 = s then r.2 ++ runs_windows s rs else runs_windows s rs

/-- The url lists recorded under workspace `s` in a grouped result, in
ascending window-index order. -/
def result_urls (s : String) : WorkspaceUrls → List TabUrls
  | [] => []
  | e :: es =>
    if e.1 = s then e.2.map Prod.snd ++ result_urls s es else result_urls s es

/-- `chars_lt` is irreflexive. -/
theorem chars_lt_irrefl : ∀ l : List Char, chars_lt l l = false := by
  intro l
  induction l with
  | nil => rfl
  | cons a as ih => simp [chars_lt, ih]

/-- `chars_lt` is transitive. -/
theorem chars_lt_trans :
    ∀ (a b c : List Char), chars_lt a b = true → chars_lt b c = true →
      chars_lt a c = true := by
  intro a
  induction a with
  | nil =>
    intro b c hab hbc
    cases b with
    | nil => simp [chars_lt] at hab
    | cons y ys =>
      cases c with
      | nil => simp [chars_lt] at hbc
      | cons z zs => rfl
  | cons x xs ih =>
    intro b c hab hbc
    cases b with
    | nil => simp [chars_lt] at hab
    | cons y ys =>
      cases c with
      | nil => simp [chars_lt] at hbc
      | cons z zs =>
        by_cases h1 : x.toNat < y.toNat
        · by_cases h2 : y.toNat < z.toNat
          · simp [chars_lt, show x.toNat < z.toNat by omega]
          · by_cases h4 : z.toNat < y.toNat
            · simp [chars_lt, h2, h4] at hbc
            · simp [chars_lt, show x.toNat < z.toNat by omega]
        · by_cases h5 : y.toNat < x.toNat
          · simp [chars_lt, h1, h5] at hab
          · by_cases h2 : y.toNat < z.toNat
            · simp [chars_lt, show x.toNat < z.toNat by omega]
            · by_cases h4 : z.toNat < y.toNat
              · simp [chars_lt, h2, h4] at hbc
              · simp [chars_lt, h1, h5] at hab
                simp [chars_lt, h2, h4] at hbc
                simp [chars_lt, show ¬ x.toNat < z.toNat by omega,
                  show ¬ z.toNat < x.toNat by omega]
                exact ih ys zs hab hbc

/-- Co-transitivity of the strict total order: anything sits on one side
of a strict pair. -/
theorem chars_lt_or :
    ∀ (a c : List Char), chars_lt a c = true →
      ∀ b, chars_lt a b = true ∨ chars_lt b c = true := by
  intro a
  induction a with
  | nil =>
    intro c hac b
    cases b with
    | nil => exact Or.inr hac
    | cons y ys => exact Or.inl rfl
  | cons x xs ih =>
    intro c hac b
    cases c with
    | nil => simp [chars_lt] at hac
    | cons z zs =>
      cases b with
      | nil => exact Or.inr rfl
      | cons y ys =>
        by_cases h1 : x.toNat < y.toNat
        · exact Or.inl (by simp [chars_lt, h1])
        · by_cases h2 : y.toNat < z.toNat
          · exact Or.inr (by simp [chars_lt, h2])
          · by_cases h3 : x.toNat < z.toNat
            · exact absurd (show y.toNat < z.toNat by omega) h2
            · by_cases h4 : z.toNat < x.toNat
              · simp [chars_lt, h3, h4] at hac
              · simp [chars_lt, h3, h4] at hac
                rcases ih zs hac ys with h | h
                · exact Or.inl (by
                    simp [chars_lt, h1, show ¬ y.toNat < x.toNat by omega, h])
                · exact Or.inr (by
                    simp [chars_lt, h2, show ¬ z.toNat < y.toNat by omega, h])

/-- `str_lt` is irreflexive. -/
theorem str_lt_irrefl (s : String) : str_lt s s = false :=
  chars_lt_irrefl s.data

/-- `str_lt` is transitive. -/
theorem str_lt_trans {a b c : String} (h1 : str_lt a b = true)
    (h2 : str_lt b c = true) : str_lt a c = true :=
  chars_lt_trans a.data b.data c.data h1 h2

/-- Co-transitivity for `str_lt`. -/
theorem str_lt_or {a c : String} (h : str_lt a c = true) (b : String) :
    str_lt a b = true ∨ str_lt b c = true :=
  chars_lt_or a.data c.data h b.data

/-- Asymmetry: a strictly smaller string is not strictly greater. -/
theorem str_lt_asymm {a b : String} (h : str_lt a b = true) :
    str_lt b a = false := by
  cases hb : str_lt b a with
  | false => rfl
  | true => exact absurd (str_lt_trans h hb) (by simp [str_lt_irrefl])

/-- Strictly comparable strings differ. -/
theorem ne_of_str_lt {a b : String} (h : str_lt a b = true) : ¬ b = a :=
  fun he => absurd (he ▸ h) (by simp [str_lt_irrefl])

/-- The ordering maintained by the stable sort: the later key is not
strictly below the earlier one. -/
def key_le (p q : String × Window) : Prop := str_lt q.1 p.1 = false

/-- Membership through one stable-insertion step. -/
theorem mem_insert_keyed {b a : String × Window} :
    ∀ {l}, b ∈ insert_keyed a l → b = a ∨ b ∈ l := by
  intro l
  induction l with
  | nil =>
    intro h
    rcases List.mem_cons.1 h with h | h
    · exact Or.inl h
    · cases h
  | cons x xs ih =>
    intro h
    dsimp [insert_keyed] at h
    by_cases hc : str_lt a.1 x.1 = true
    · rw [if_pos hc] at h
      rcases List.mem_cons.1 h with h | h
      · exact Or.inl h
      · exact Or.inr h
    · rw [if_neg hc] at h
      rcases List.mem_cons.1 h with h | h
      · exact Or.inr (List.mem_cons.2 (Or.inl h))
      · rcases ih h with h | h
        · exact Or.inl h
        · exact Or.inr (List.mem_cons.2 (Or.inr h))

/-- Stable insertion preserves sortedness by key. -/
theorem sorted_insert_keyed (a : String × Window) :
    ∀ {l}, l.Pairwise key_le → (insert_keyed a l).Pairwise key_le := by
  intro l
  induction l with
  | nil =>
    intro _
    exact List.pairwise_cons.2 ⟨fun b hb => absurd hb (List.not_mem_nil b),
      List.Pairwise.nil⟩
  | cons x xs ih =>
    intro h
    rcases List.pairwise_cons.1 h with ⟨hx, hxs⟩
    dsimp [insert_keyed]
    by_cases hc : str_lt a.1 x.1 = true
    · rw [if_pos hc]
      refine List.pairwise_cons.2 ⟨?_, h⟩
      intro b hb
      rcases List.mem_cons.1 hb with hb | hb
      · subst hb
        exact str_lt_asymm hc
      · show str_lt b.1 a.1 = false
        have hxb : str_lt b.1 x.1 = false := hx b hb
        cases hba : str_lt b.1 a.1 with
        | false => rfl
        | true => exact absurd (str_lt_trans hba hc) (by simp [hxb])
    · rw [if_neg hc]
      refine List.pairwise_cons.2 ⟨?_, ih hxs⟩
      intro b hb
      rcases mem_insert_keyed hb with hb | hb
      · subst hb
        show str_lt b.1 x.1 = false
        revert hc
        cases str_lt b.1 x.1 <;> simp
      · exact hx b hb

/-- A list all of whose keys are strictly above `s` holds no entry of
workspace `s`. -/
theorem keep_key_nil_of_forall_lt (s : String) :
    ∀ {l : List (String × Window)}, (∀ p ∈ l, str_lt s p.1 = true) →
      keep_key s l = [] := by
  intro l
  induction l with
  | nil => intro _; rfl
  | cons p ps ih =>
    intro h
    have hp : ¬ p.1 = s := ne_of_str_lt (h p (List.mem_cons_self p ps))
    simp [keep_key, hp, ih (fun q hq => h q (List.mem_cons.2 (Or.inr hq)))]

/-- Inserting into a sorted list appends the new element at the end of its
own workspace subsequence: the heart of stability. -/
theorem keep_key_insert_keyed (s : String) (a : String × Window) :
    ∀ {l}, l.Pairwise key_le →
      keep_key s (insert_keyed a l)
        = if a.1 = s then keep_key s l ++ [a] else keep_key s l := by
  intro l
  induction l with
  | nil =>
    intro _
    by_cases ha : a.1 = s <;> simp [insert_keyed, keep_key, ha]
  | cons x xs ih =>
    intro h
    rcases List.pairwise_cons.1 h with ⟨hx, hxs⟩
    dsimp [insert_keyed]
    by_cases hc : str_lt a.1 x.1 = true
    · rw [if_pos hc]
      by_cases ha : a.1 = s
      · have hnil : keep_key s (x :: xs) = [] := by
          apply keep_key_nil_of_forall_lt
          intro p hp
          rcases List.mem_cons.1 hp with hp | hp
          · subst hp
            rw [← ha]
            exact hc
          · have hsx : str_lt s x.1 = true := ha ▸ hc
            have hxp : str_lt p.1 x.1 = false := hx p hp
            rcases str_lt_or hsx p.1 with hgood | hbad
            · exact hgood
            · exact absurd hbad (by simp [hxp])
        have hstep : keep_key s (a :: x :: xs) = a :: keep_key s (x :: xs) := by
          simp [keep_key, ha]
        rw [if_pos ha, hstep, hnil]
        rfl
      · simp [keep_key, ha]
    · rw [if_neg hc]
      by_cases hxk : x.1 = s <;> by_cases ha : a.1 = s <;>
        simp [keep_key, hxk, ha, ih hxs]

/-- Folding stable insertions over a list: the workspace-`s` subsequence of
the accumulated sorted list extends in input order. -/
theorem keep_key_foldl (s : String) :
    ∀ (l : List (String × Window)) (acc), acc.Pairwise key_le →
      keep_key s (List.foldl (fun ac a => insert_keyed a ac) acc l)
        = keep_key s acc ++ keep_key s l := by
  intro l
  induction l with
  | nil => intro acc _; simp [keep_key]
  | cons a l ih =>
    intro acc hacc
    dsimp [List.foldl]
    rw [ih (insert_keyed a acc) (sorted_insert_keyed a hacc),
      keep_key_insert_keyed s a hacc]
    by_cases ha : a.1 = s <;> simp [keep_key, ha]

/-- The stable sort of ftl.py line 83 preserves each workspace's
subsequence exactly: sorting neither reorders nor loses windows that share
a workspace id. -/
theorem keep_key_sort (s : String) (l : List (String × Window)) :
    keep_key s (sort_keyed l) = keep_key s l := by
  have h := keep_key_foldl s l [] List.Pairwise.nil
  simpa [sort_keyed, keep_key] using h

/-- Unfolding equation for `runs_windows` on a cons cell. -/
theorem runs_windows_cons (s k : String) (run : List Window)
    (rs : List (String × List Window)) :
    runs_windows s ((k, run) :: rs)
      = if k = s then run ++ runs_windows s rs else runs_windows s rs := rfl

/-- Unfolding equation for `result_urls` on a cons cell. -/
theorem result_urls_cons (s k : String) (wm : WindowUrls)
    (es : WorkspaceUrls) :
    result_urls s ((k, wm) :: es)
      = if k = s then wm.map Prod.snd ++ result_urls s es
        else result_urls s es := rfl

/-- Unfolding equation for `keep_key` on a cons cell. -/
theorem keep_key_cons (s k : String) (w : Window)
    (ps : List (String × Window)) :
    keep_key s ((k, w) :: ps)
      = if k = s then (k, w) :: keep_key s ps else keep_key s ps := rfl

/-- Unfolding equation for `windows_with_id` on a cons cell. -/
theorem windows_with_id_cons (s : String) (w : Window) (ws : List Window) :
    windows_with_id s (w :: ws)
      = if get_window_workspace_id w = some s then w :: windows_with_id s ws
        else windows_with_id s ws := rfl

/-- Unfolding equation for `group_runs` when the tail groups to nothing. -/
theorem group_runs_cons_nil (k : String) (w : Window)
    (rest : List (String × Window)) (hg : group_runs rest = []) :
    group_runs ((k, w) :: rest) = [(k, [w])] := by
  dsimp only [group_runs]
  rw [hg]

/-- Unfolding equation for `group_runs` when the tail groups to at least
one run. -/
theorem group_runs_cons_cons (k : String) (w : Window)
    (rest : List (String × Window)) (k2 : String) (run : List Window)
    (rs : List (String × List Window))
    (hg : group_runs rest = (k2, run) :: rs) :
    group_runs ((k, w) :: rest)
      = if k = k2 then (k, w :: run) :: rs
        else (k, [w]) :: (k2, run) :: rs := by
  dsimp only [group_runs]
  rw [hg]

/-- groupby yields no runs only on the empty list. -/
theorem group_runs_eq_nil :
    ∀ {l : List (String × Window)}, group_runs l = [] → l = [] := by
  intro l h
  match l with
  | [] => rfl
  | (k, w) :: rest =>
    exfalso
    dsimp only [group_runs] at h
    cases hg : group_runs rest with
    | nil => rw [hg] at h; simp at h
    | cons r rs =>
      obtain ⟨k2, run⟩ := r
      rw [hg] at h
      by_cases hk : k = k2 <;> simp [hk] at h

/-- The groupby runs partition the keyed list: for every key `s`, the
windows collected across the runs of key `s`, in run order, are exactly the
key-`s` subsequence of the input list. -/
theorem runs_windows_group_runs (s : String) :
    ∀ l : List (String × Window),
      runs_windows s (group_runs l) = (keep_key s l).map Prod.snd := by
  intro l
  induction l with
  | nil => rfl
  | cons p rest ih =>
    obtain ⟨k, w⟩ := p
    cases hg : group_runs rest with
    | nil =>
      have hr : rest = [] := group_runs_eq_nil hg
      subst hr
      rw [group_runs_cons_nil k w [] rfl]
      by_cases hk : k = s <;>
        simp [runs_windows, keep_key, hk]
    | cons r rs =>
      obtain ⟨k2, run⟩ := r
      rw [hg] at ih
      rw [group_runs_cons_cons k w rest k2 run rs hg]
      by_cases hk2 : k = k2
      · subst hk2
        rw [if_pos rfl]
        have hih : (if k = s then run ++ runs_windows s rs
              else runs_windows s rs)
            = (keep_key s rest).map Prod.snd := by
          rw [← runs_windows_cons s k run rs]
          exact ih
        by_cases hk : k = s
        · rw [if_pos hk] at hih
          rw [runs_windows_cons, if_pos hk, keep_key_cons, if_pos hk]
          simp only [List.map_cons, List.cons_append, ← hih]
        · rw [if_neg hk] at hih
          rw [runs_windows_cons, if_neg hk, keep_key_cons, if_neg hk]
          exact hih
      · rw [if_neg hk2]
        by_cases hk : k = s
        · rw [runs_windows_cons, if_pos hk, keep_key_cons, if_pos hk, ih]
          rfl
        · rw [runs_windows_cons, if_neg hk, keep_key_cons, if_neg hk, ih]

/-- The keyed window list filtered to key `s` carries exactly the windows
whose workspace id is `s`, in original order. -/
theorem keyed_windows_keep (s : String) :
    ∀ (ws : List Window) (kws : List (String × Window)),
      keyed_windows ws = some kws →
      (keep_key s kws).map Prod.snd = windows_with_id s ws := by
  intro ws
  induction ws with
  | nil =>
    intro kws h
    simp [keyed_windows] at h
    subst h
    rfl
  | cons w ws ih =>
    intro kws h
    cases hga : get_window_workspace_id w with
    | none => simp [keyed_windows, hga] at h
    | some k =>
      cases hkw : keyed_windows ws with
      | none => simp [keyed_windows, hga, hkw] at h
      | some rest =>
        simp [keyed_windows, hga, hkw] at h
        subst h
        rw [keep_key_cons, windows_with_id_cons, hga]
        by_cases hk : k = s
        · rw [if_pos hk, if_pos (by rw [hk])]
          simp only [List.map_cons]
          rw [ih rest hkw]
        · rw [if_neg hk, if_neg (fun hc => hk (Option.some.inj hc))]
          exact ih rest hkw

/-- Extraction distributes over list append. -/
theorem windows_urls_append :
    ∀ (l1 l2 : List Window) (u1 u2 : List TabUrls),
      windows_urls l1 = some u1 → windows_urls l2 = some u2 →
      windows_urls (l1 ++ l2) = some (u1 ++ u2) := by
  intro l1
  induction l1 with
  | nil =>
    intro l2 u1 u2 h1 h2
    simp [windows_urls] at h1
    subst h1
    simpa using h2
  | cons w l1 ih =>
    intro l2 u1 u2 h1 h2
    cases hgw : get_window_tab_urls w with
    | none => simp [windows_urls, hgw] at h1
    | some u =>
      cases hl : windows_urls l1 with
      | none => simp [windows_urls, hgw, hl] at h1
      | some us =>
        simp [windows_urls, hgw, hl] at h1
        subst h1
        simp [windows_urls, hgw, ih l2 us u2 hl h2]

/-- The values of an enumerated dict are the enumerated lists themselves. -/
theorem index_urls_from_snd :
    ∀ (us : List TabUrls) (n : Nat),
      (index_urls_from n us).map Prod.snd = us := by
  intro us
  induction us with
  | nil => intro n; rfl
  | cons u us ih => intro n; simp [index_urls_from, ih]

/-- The keys of an enumerated dict are the consecutive decimal strings
starting at the enumeration origin. -/
theorem index_urls_from_fst :
    ∀ (us : List TabUrls) (n : Nat),
      (index_urls_from n us).map Prod.fst
        = (List.range' n us.length).map toString := by
  intro us
  induction us with
  | nil => intro n; rfl
  | cons u us ih =>
    intro n
    simp only [index_urls_from, List.map_cons, List.length_cons,
      List.range'_succ, ih]

/-- The keys of `index_urls us` are `"0", "1", ...` in order. -/
theorem index_urls_fst (us : List TabUrls) :
    (index_urls us).map Prod.fst = (List.range us.length).map toString := by
  rw [index_urls, index_urls_from_fst, List.range_eq_range']

/-- Enumeration preserves length. -/
theorem index_urls_length (us : List TabUrls) :
    (index_urls us).length = us.length := by
  conv_rhs => rw [← index_urls_from_snd us 0]
  rw [index_urls, List.length_map]

/-- Every window map of a grouped result has keys `"0", "1", ...` in
ascending order: the 0-based per-workspace indices. -/
theorem runs_to_result_keys :
    ∀ (runs : List (String × List Window)) (result : WorkspaceUrls),
      runs_to_result runs = some result →
      ∀ e ∈ result,
        e.2.map Prod.fst = (List.range e.2.length).map toString := by
  intro runs
  induction runs with
  | nil =>
    intro result h e he
    simp [runs_to_result] at h
    subst h
    cases he
  | cons r rs ih =>
    intro result h e he
    cases hre : run_to_entry r with
    | none => simp [runs_to_result, hre] at h
    | some e0 =>
      cases hrs : runs_to_result rs with
      | none => simp [runs_to_result, hre, hrs] at h
      | some tail =>
        simp [runs_to_result, hre, hrs] at h
        subst h
        rcases List.mem_cons.1 he with he | he
        · subst he
          cases hwu : windows_urls r.2 with
          | none => simp [run_to_entry, hwu] at hre
          | some us =>
            simp [run_to_entry, hwu] at hre
            subst hre
            rw [index_urls_length]
            exact index_urls_fst us
        · exact ih tail hrs e he

/-- The url lists a grouped result stores under workspace `s`, in ascending
index order, are the extraction of the windows the runs assign to `s`. -/
theorem runs_to_result_urls (s : String) :
    ∀ (runs : List (String × List Window)) (result : WorkspaceUrls),
      runs_to_result runs = some result →
      windows_urls (runs_windows s runs) = some (result_urls s result) := by
  intro runs
  induction runs with
  | nil =>
    intro result h
    simp [runs_to_result] at h
    subst h
    rfl
  | cons r rs ih =>
    intro result h
    obtain ⟨k, run⟩ := r
    cases hre : run_to_entry (k, run) with
    | none => simp [runs_to_result, hre] at h
    | some e0 =>
      cases hrs : runs_to_result rs with
      | none => simp [runs_to_result, hre, hrs] at h
      | some tail =>
        simp [runs_to_result, hre, hrs] at h
        subst h
        cases hwu : windows_urls run with
        | none => simp [run_to_entry, hwu] at hre
        | some us =>
          simp [run_to_entry, hwu] at hre
          subst hre
          rw [runs_windows_cons, result_urls_cons]
          by_cases hk : k = s
          · rw [if_pos hk, if_pos hk]
            rw [windows_urls_append run (runs_windows s rs) us
              (result_urls s tail) hwu (ih tail hrs)]
            rw [index_urls, index_urls_from_snd]
          · rw [if_neg hk, if_neg hk]
            exact ih tail hrs

/-- C5: grouping is order-preserving within each workspace.  For every
session that groups successfully, (1) every workspace entry of the result
maps window-index keys `"0", "1", ...` in ascending order, and (2) for
every workspace id `s`, the url lists stored under `s` in that index order
are exactly the extraction of the windows bearing id `s` in their original
sequence order — so two windows sharing a workspace id receive indices in
their original relative order (the sort is stable). -/
theorem grouping_preserves_window_order (session : Session)
    (ws : List Window) (result : WorkspaceUrls)
    (hw : session.windows = some ws)
    (hr : get_urls_by_window_by_workspace session = some result)
    (s : String) :
    (∀ e ∈ result,
        e.2.map Prod.fst = (List.range e.2.length).map toString) ∧
      windows_urls (windows_with_id s ws) = some (result_urls s result) := by
  simp only [get_urls_by_window_by_workspace, hw] at hr
  cases hkw : keyed_windows ws with
  | none => rw [hkw] at hr; cases hr
  | some kws =>
    rw [hkw] at hr
    refine ⟨runs_to_result_keys _ _ hr, ?_⟩
    rw [← keyed_windows_keep s ws kws hkw, ← keep_key_sort s kws,
      ← runs_windows_group_runs s (sort_keyed kws)]
    exact runs_to_result_urls s _ _ hr

/-- Witness for C5: a session with two windows in workspace `"w1"` groups
them to indices `"0"` and `"1"` in original order. -/
theorem grouping_preserves_window_order_witness :
    (∀ e ∈ ([("w1", [("0", ["x"]), ("1", ["y"])])] : WorkspaceUrls),
        e.2.map Prod.fst = (List.range e.2.length).map toString) ∧
      windows_urls (windows_with_id "w1"
          [⟨some "w1", [⟨["x"], 1⟩]⟩, ⟨some "w1", [⟨["y"], 1⟩]⟩])
        = some (result_urls "w1" [("w1", [("0", ["x"]), ("1", ["y"])])]) :=
  grouping_preserves_window_order
    ⟨some [⟨some "w1", [⟨["x"], 1⟩]⟩, ⟨some "w1", [⟨["y"], 1⟩]⟩]⟩
    [⟨some "w1", [⟨["x"], 1⟩]⟩, ⟨some "w1", [⟨["y"], 1⟩]⟩]
    [("w1", [("0", ["x"]), ("1", ["y"])])] rfl (by decide) "w1"

end Ftl
